import Mathlib

set_option maxRecDepth 8192

/-!
# Verification of `batch_fix_packs.py` (swarties/3dItemFixer)

Shallow embedding of the texture-pack batch fixer:

* a byte-level UTF-8 codec modelling Python's strict `bytes.decode('utf-8')`
  and `str.encode('utf-8')` (bytes are `List Nat`, decoded text is a
  `List Nat` of Unicode code points);
* `replaceList` / `countOcc` modelling Python's `str.replace` and `str.count`
  (leftmost, non-overlapping);
* the archive model (`ZEntry`, `ZArchive`) and the two core functions
  `check_if_has_models` and `fix_missing_textures_in_memory`;
* a filesystem state machine `runArchive` modelling the per-archive part of
  `process_zip_files` (backup / temp write / remove / rename, with fault
  injection and the exception-handler cleanup) and a batch driver `runBatch`.
-/

/-! ## UTF-8 codec

Models CPython's strict UTF-8 decoder: multi-byte sequences must use
continuation bytes `0x80..0xBF`, overlong encodings are rejected (lead byte
`0xC0`/`0xC1` invalid; `0xE0` requires second byte `≥ 0xA0`; `0xF0` requires
second byte `≥ 0x90`), surrogates are rejected (`0xED` requires second byte
`≤ 0x9F`) and code points above `0x10FFFF` are rejected (lead byte at most
`0xF4`, and `0xF4` requires second byte `≤ 0x8F`). -/

def utf8Decode : List Nat → Option (List Nat)
  | [] => some []
  | b :: rest =>
    if b < 128 then (utf8Decode rest).map (fun cs => b :: cs)
    else if 194 ≤ b ∧ b ≤ 223 then
      match rest with
      | [] => none
      | b2 :: r2 =>
        if 128 ≤ b2 ∧ b2 ≤ 191 then
          (utf8Decode r2).map (fun cs => ((b - 192) * 64 + (b2 - 128)) :: cs)
        else none
    else if 224 ≤ b ∧ b ≤ 239 then
      match rest with
      | [] => none
      | b2 :: r =>
        match r with
        | [] => none
        | b3 :: r3 =>
          if (128 ≤ b2 ∧ b2 ≤ 191) ∧ (128 ≤ b3 ∧ b3 ≤ 191)
              ∧ (b = 224 → 160 ≤ b2) ∧ (b = 237 → b2 ≤ 159) then
            (utf8Decode r3).map
              (fun cs => ((b - 224) * 4096 + (b2 - 128) * 64 + (b3 - 128)) :: cs)
          else none
    else if 240 ≤ b ∧ b ≤ 244 then
      match rest with
      | [] => none
      | b2 :: r =>
        match r with
        | [] => none
        | b3 :: r' =>
          match r' with
          | [] => none
          | b4 :: r4 =>
            if (128 ≤ b2 ∧ b2 ≤ 191) ∧ (128 ≤ b3 ∧ b3 ≤ 191) ∧ (128 ≤ b4 ∧ b4 ≤ 191)
                ∧ (b = 240 → 144 ≤ b2) ∧ (b = 244 → b2 ≤ 143) then
              (utf8Decode r4).map
                (fun cs =>
                  ((b - 240) * 262144 + (b2 - 128) * 4096 + (b3 - 128) * 64 + (b4 - 128)) :: cs)
            else none
    else none

theorem utf8Decode_nil : utf8Decode [] = some [] := rfl

/-- A Unicode scalar value: at most `0x10FFFF` and not a surrogate. -/
def validCp (c : Nat) : Prop := c < 1114112 ∧ (c < 55296 ∨ 57343 < c)

instance (c : Nat) : Decidable (validCp c) := by unfold validCp; infer_instance

def utf8EncodeChar (c : Nat) : List Nat :=
  if c < 128 then [c]
  else if c < 2048 then [192 + c / 64, 128 + c % 64]
  else if c < 65536 then [224 + c / 4096, 128 + c / 64 % 64, 128 + c % 64]
  else [240 + c / 262144, 128 + c / 4096 % 64, 128 + c / 64 % 64, 128 + c % 64]

def utf8Encode (cs : List Nat) : List Nat := (cs.map utf8EncodeChar).flatten

theorem utf8Encode_nil : utf8Encode [] = [] := rfl

theorem utf8Encode_cons (c : Nat) (cs : List Nat) :
    utf8Encode (c :: cs) = utf8EncodeChar c ++ utf8Encode cs := by
  simp [utf8Encode]

/-- Soundness of the decoder: on success, re-encoding gives back exactly the
input bytes, and every decoded code point is a valid Unicode scalar. -/
theorem utf8_decode_sound : ∀ n (bs : List Nat), bs.length ≤ n →
    ∀ cs, utf8Decode bs = some cs →
      utf8Encode cs = bs ∧ ∀ c ∈ cs, validCp c := by
  intro n
  induction n with
  | zero =>
    intro bs hn cs h
    cases bs with
    | nil =>
      rw [utf8Decode_nil, Option.some.injEq] at h
      subst h
      exact ⟨rfl, by simp⟩
    | cons b rest => simp at hn
  | succ n ih =>
    intro bs hn cs h
    cases bs with
    | nil =>
      rw [utf8Decode_nil, Option.some.injEq] at h
      subst h
      exact ⟨rfl, by simp⟩
    | cons b rest =>
      simp only [List.length_cons] at hn
      rw [utf8Decode.eq_def] at h
      dsimp only [] at h
      by_cases h1 : b < 128
      · rw [if_pos h1] at h
        cases hrec : utf8Decode rest with
        | none => rw [hrec] at h; exact absurd h (by simp)
        | some cs' =>
          rw [hrec, Option.map_some', Option.some.injEq] at h
          subst h
          obtain ⟨he, hv⟩ := ih rest (by omega) cs' hrec
          refine ⟨?_, ?_⟩
          · rw [utf8Encode_cons, he, utf8EncodeChar, if_pos h1]; rfl
          · intro c hc
            rcases List.mem_cons.mp hc with rfl | hc
            · exact ⟨by omega, by omega⟩
            · exact hv c hc
      · rw [if_neg h1] at h
        by_cases h2 : 194 ≤ b ∧ b ≤ 223
        · rw [if_pos h2] at h
          cases rest with
          | nil => exact absurd h (by simp)
          | cons b2 r2 =>
            dsimp only [] at h
            by_cases hb2 : 128 ≤ b2 ∧ b2 ≤ 191
            · rw [if_pos hb2] at h
              cases hrec : utf8Decode r2 with
              | none => rw [hrec] at h; exact absurd h (by simp)
              | some cs' =>
                rw [hrec, Option.map_some', Option.some.injEq] at h
                subst h
                obtain ⟨he, hv⟩ := ih r2 (by simp at hn; omega) cs' hrec
                refine ⟨?_, ?_⟩
                · rw [utf8Encode_cons, he, utf8EncodeChar,
                    if_neg (by omega), if_pos (by omega)]
                  simp only [List.cons_append, List.nil_append, List.cons.injEq]
                  exact ⟨by omega, by omega, trivial⟩
                · intro c hc
                  rcases List.mem_cons.mp hc with rfl | hc
                  · exact ⟨by omega, by omega⟩
                  · exact hv c hc
            · rw [if_neg hb2] at h; exact absurd h (by simp)
        · rw [if_neg h2] at h
          by_cases h3 : 224 ≤ b ∧ b ≤ 239
          · rw [if_pos h3] at h
            cases rest with
            | nil => exact absurd h (by simp)
            | cons b2 r =>
              dsimp only [] at h
              cases r with
              | nil => exact absurd h (by simp)
              | cons b3 r3 =>
                dsimp only [] at h
                by_cases hg : (128 ≤ b2 ∧ b2 ≤ 191) ∧ (128 ≤ b3 ∧ b3 ≤ 191)
                    ∧ (b = 224 → 160 ≤ b2) ∧ (b = 237 → b2 ≤ 159)
                · rw [if_pos hg] at h
                  cases hrec : utf8Decode r3 with
                  | none => rw [hrec] at h; exact absurd h (by simp)
                  | some cs' =>
                    rw [hrec, Option.map_some', Option.some.injEq] at h
                    subst h
                    obtain ⟨he, hv⟩ := ih r3 (by simp at hn; omega) cs' hrec
                    obtain ⟨⟨hb2a, hb2b⟩, ⟨hb3a, hb3b⟩, hE0, hED⟩ := hg
                    refine ⟨?_, ?_⟩
                    · rw [utf8Encode_cons, he, utf8EncodeChar,
                        if_neg (by omega), if_neg (by omega), if_pos (by omega)]
                      simp only [List.cons_append, List.nil_append, List.cons.injEq]
                      exact ⟨by omega, by omega, by omega, trivial⟩
                    · intro c hc
                      rcases List.mem_cons.mp hc with rfl | hc
                      · exact ⟨by omega, by omega⟩
                      · exact hv c hc
                · rw [if_neg hg] at h; exact absurd h (by simp)
          · rw [if_neg h3] at h
            by_cases h4 : 240 ≤ b ∧ b ≤ 244
            · rw [if_pos h4] at h
              cases rest with
              | nil => exact absurd h (by simp)
              | cons b2 r =>
                dsimp only [] at h
                cases r with
                | nil => exact absurd h (by simp)
                | cons b3 r' =>
                  dsimp only [] at h
                  cases r' with
                  | nil => exact absurd h (by simp)
                  | cons b4 r4 =>
                    dsimp only [] at h
                    by_cases hg : (128 ≤ b2 ∧ b2 ≤ 191) ∧ (128 ≤ b3 ∧ b3 ≤ 191)
                        ∧ (128 ≤ b4 ∧ b4 ≤ 191) ∧ (b = 240 → 144 ≤ b2) ∧ (b = 244 → b2 ≤ 143)
                    · rw [if_pos hg] at h
                      cases hrec : utf8Decode r4 with
                      | none => rw [hrec] at h; exact absurd h (by simp)
                      | some cs' =>
                        rw [hrec, Option.map_some', Option.some.injEq] at h
                        subst h
                        obtain ⟨he, hv⟩ := ih r4 (by simp at hn; omega) cs' hrec
                        obtain ⟨⟨hb2a, hb2b⟩, ⟨hb3a, hb3b⟩, ⟨hb4a, hb4b⟩, hF0, hF4⟩ := hg
                        refine ⟨?_, ?_⟩
                        · rw [utf8Encode_cons, he, utf8EncodeChar,
                            if_neg (by omega), if_neg (by omega), if_neg (by omega)]
                          simp only [List.cons_append, List.nil_append, List.cons.injEq]
                          exact ⟨by omega, by omega, by omega, by omega, trivial⟩
                        · intro c hc
                          rcases List.mem_cons.mp hc with rfl | hc
                          · exact ⟨by omega, by omega⟩
                          · exact hv c hc
                    · rw [if_neg hg] at h; exact absurd h (by simp)
            · rw [if_neg h4] at h; exact absurd h (by simp)

/-- Completeness of the codec: encoding any list of valid Unicode scalars and
decoding it back returns exactly the original code points. -/
theorem utf8_encode_decode : ∀ cs : List Nat, (∀ c ∈ cs, validCp c) →
    ∀ bs cs', utf8Decode bs = some cs' →
      utf8Decode (utf8Encode cs ++ bs) = some (cs ++ cs') := by
  intro cs
  induction cs with
  | nil => intro _ bs cs' h; simpa [utf8Encode] using h
  | cons c cs ih =>
    intro hv bs cs' h
    have hvc : validCp c := hv c (by simp)
    have hrest := ih (fun x hx => hv x (by simp [hx])) bs cs' h
    rw [utf8Encode_cons, List.append_assoc]
    rw [utf8EncodeChar]
    by_cases h1 : c < 128
    · rw [if_pos h1]
      simp only [List.cons_append, List.nil_append]
      rw [utf8Decode.eq_def]
      dsimp only []
      rw [if_pos h1, hrest, Option.map_some']
    · rw [if_neg h1]
      by_cases h2 : c < 2048
      · rw [if_pos h2]
        simp only [List.cons_append, List.nil_append]
        rw [utf8Decode.eq_def]
        dsimp only []
        rw [if_neg (by omega), if_pos (by omega), if_pos (by omega), hrest, Option.map_some']
        simp only [Option.some.injEq, List.cons.injEq]
        exact ⟨by omega, trivial⟩
      · rw [if_neg h2]
        by_cases h3 : c < 65536
        · rw [if_pos h3]
          obtain ⟨hmax, hsur⟩ := hvc
          simp only [List.cons_append, List.nil_append]
          rw [utf8Decode.eq_def]
          dsimp only []
          rw [if_neg (by omega), if_neg (by omega), if_pos (by omega),
            if_pos (by omega), hrest, Option.map_some']
          simp only [Option.some.injEq, List.cons.injEq]
          exact ⟨by omega, trivial⟩
        · rw [if_neg h3]
          obtain ⟨hmax, hsur⟩ := hvc
          simp only [List.cons_append, List.nil_append]
          rw [utf8Decode.eq_def]
          dsimp only []
          rw [if_neg (by omega), if_neg (by omega), if_neg (by omega),
            if_pos (by omega), if_pos (by omega), hrest, Option.map_some']
          simp only [Option.some.injEq, List.cons.injEq]
          exact ⟨by omega, trivial⟩

theorem utf8_decode_encode (bs cs : List Nat) (h : utf8Decode bs = some cs) :
    utf8Encode cs = bs :=
  (utf8_decode_sound bs.length bs le_rfl cs h).1

theorem utf8_decode_valid (bs cs : List Nat) (h : utf8Decode bs = some cs) :
    ∀ c ∈ cs, validCp c :=
  (utf8_decode_sound bs.length bs le_rfl cs h).2

theorem utf8_roundtrip (cs : List Nat) (hv : ∀ c ∈ cs, validCp c) :
    utf8Decode (utf8Encode cs) = some cs := by
  have h := utf8_encode_decode cs hv [] [] rfl
  simpa using h

/-! ## Python string primitives

`replaceList pat rep s` models Python's `s.replace(pat, rep)` for a nonempty
pattern and `countOcc pat s` models `s.count(pat)`: both scan left to right
and treat occurrences non-overlappingly, skipping past each match.
`splitOnList pat s` is the matching decomposition of `s` at those occurrence
positions (as in `s.split(pat)`), and `joinWith` is `sep.join(parts)`.
The functions use an auxiliary skip counter so the recursion is structural;
the `_cons` lemmas below state the intended one-step unfolding. -/

def replaceGo (pat rep : List Nat) : List Nat → Nat → List Nat
  | [], _ => []
  | _ :: t, k+1 => replaceGo pat rep t k
  | c :: t, 0 =>
    if pat ≠ [] ∧ pat <+: (c :: t) then rep ++ replaceGo pat rep t (pat.length - 1)
    else c :: replaceGo pat rep t 0

def replaceList (pat rep s : List Nat) : List Nat := replaceGo pat rep s 0

def countGo (pat : List Nat) : List Nat → Nat → Nat
  | [], _ => 0
  | _ :: t, k+1 => countGo pat t k
  | c :: t, 0 =>
    if pat ≠ [] ∧ pat <+: (c :: t) then 1 + countGo pat t (pat.length - 1)
    else countGo pat t 0

def countOcc (pat s : List Nat) : Nat := countGo pat s 0

def splitGo (pat : List Nat) : List Nat → Nat → List (List Nat)
  | [], _ => [[]]
  | _ :: t, k+1 => splitGo pat t k
  | c :: t, 0 =>
    if pat ≠ [] ∧ pat <+: (c :: t) then [] :: splitGo pat t (pat.length - 1)
    else
      match splitGo pat t 0 with
      | [] => [[c]]
      | p :: ps => (c :: p) :: ps

def splitOnList (pat s : List Nat) : List (List Nat) := splitGo pat s 0

def joinWith (sep : List Nat) : List (List Nat) → List Nat
  | [] => []
  | [p] => p
  | p :: q :: rest => p ++ sep ++ joinWith sep (q :: rest)

theorem replaceGo_drop (pat rep : List Nat) :
    ∀ (s : List Nat) (k : Nat), replaceGo pat rep s k = replaceGo pat rep (s.drop k) 0 := by
  intro s
  induction s with
  | nil => intro k; cases k <;> rfl
  | cons c t ih =>
    intro k
    cases k with
    | zero => rw [List.drop_zero]
    | succ k =>
      rw [replaceGo, ih k, List.drop_succ_cons]

theorem countGo_drop (pat : List Nat) :
    ∀ (s : List Nat) (k : Nat), countGo pat s k = countGo pat (s.drop k) 0 := by
  intro s
  induction s with
  | nil => intro k; cases k <;> rfl
  | cons c t ih =>
    intro k
    cases k with
    | zero => rw [List.drop_zero]
    | succ k =>
      rw [countGo, ih k, List.drop_succ_cons]

theorem splitGo_drop (pat : List Nat) :
    ∀ (s : List Nat) (k : Nat), splitGo pat s k = splitGo pat (s.drop k) 0 := by
  intro s
  induction s with
  | nil => intro k; cases k <;> rfl
  | cons c t ih =>
    intro k
    cases k with
    | zero => rw [List.drop_zero]
    | succ k =>
      rw [splitGo, ih k, List.drop_succ_cons]

theorem replaceList_nil (pat rep : List Nat) : replaceList pat rep [] = [] := rfl

theorem replaceList_cons (pat rep : List Nat) (c : Nat) (t : List Nat) :
    replaceList pat rep (c :: t) =
      if pat ≠ [] ∧ pat <+: (c :: t) then
        rep ++ replaceList pat rep ((c :: t).drop pat.length)
      else c :: replaceList pat rep t := by
  show replaceGo pat rep (c :: t) 0 = _
  rw [replaceGo]
  by_cases hc : pat ≠ [] ∧ pat <+: (c :: t)
  · rw [if_pos hc, if_pos hc, replaceGo_drop pat rep t (pat.length - 1)]
    have hlen : 1 ≤ pat.length := by
      cases pat with
      | nil => exact absurd rfl hc.1
      | cons a l => simp
    have : (c :: t).drop pat.length = t.drop (pat.length - 1) := by
      cases pat with
      | nil => exact absurd rfl hc.1
      | cons a l => simp [List.drop_succ_cons]
    rw [this]
    rfl
  · rw [if_neg hc, if_neg hc]
    rfl

theorem countOcc_nil (pat : List Nat) : countOcc pat [] = 0 := rfl

theorem countOcc_cons (pat : List Nat) (c : Nat) (t : List Nat) :
    countOcc pat (c :: t) =
      if pat ≠ [] ∧ pat <+: (c :: t) then
        1 + countOcc pat ((c :: t).drop pat.length)
      else countOcc pat t := by
  show countGo pat (c :: t) 0 = _
  rw [countGo]
  by_cases hc : pat ≠ [] ∧ pat <+: (c :: t)
  · rw [if_pos hc, if_pos hc, countGo_drop pat t (pat.length - 1)]
    have hlen : 1 ≤ pat.length := by
      cases pat with
      | nil => exact absurd rfl hc.1
      | cons a l => simp
    have : (c :: t).drop pat.length = t.drop (pat.length - 1) := by
      cases pat with
      | nil => exact absurd rfl hc.1
      | cons a l => simp [List.drop_succ_cons]
    rw [this]
    rfl
  · rw [if_neg hc, if_neg hc]
    rfl

theorem splitOnList_nil (pat : List Nat) : splitOnList pat [] = [[]] := rfl

theorem splitOnList_cons (pat : List Nat) (c : Nat) (t : List Nat) :
    splitOnList pat (c :: t) =
      if pat ≠ [] ∧ pat <+: (c :: t) then
        [] :: splitOnList pat ((c :: t).drop pat.length)
      else
        match splitOnList pat t with
        | [] => [[c]]
        | p :: ps => (c :: p) :: ps := by
  show splitGo pat (c :: t) 0 = _
  rw [splitGo]
  by_cases hc : pat ≠ [] ∧ pat <+: (c :: t)
  · rw [if_pos hc, if_pos hc, splitGo_drop pat t (pat.length - 1)]
    have hlen : 1 ≤ pat.length := by
      cases pat with
      | nil => exact absurd rfl hc.1
      | cons a l => simp
    have : (c :: t).drop pat.length = t.drop (pat.length - 1) := by
      cases pat with
      | nil => exact absurd rfl hc.1
      | cons a l => simp [List.drop_succ_cons]
    rw [this]
    rfl
  · rw [if_neg hc, if_neg hc]
    rfl

/-- Code points (= ASCII bytes) of the literal `"#missing"`. -/
def missingCp : List Nat := [35, 109, 105, 115, 115, 105, 110, 103]

/-- Code points (= ASCII bytes) of the literal `"#0"`. -/
def zeroCp : List Nat := [35, 48]

theorem replace_mem (pat rep : List Nat) : ∀ n (s : List Nat), s.length ≤ n →
    ∀ c, c ∈ replaceList pat rep s → c ∈ s ∨ c ∈ rep := by
  intro n
  induction n with
  | zero =>
    intro s hn c hc
    cases s with
    | nil => rw [replaceList_nil] at hc; exact absurd hc (by simp)
    | cons a t => simp at hn
  | succ n ih =>
    intro s hn c hc
    cases s with
    | nil => rw [replaceList_nil] at hc; exact absurd hc (by simp)
    | cons a t =>
      simp only [List.length_cons] at hn
      rw [replaceList_cons] at hc
      by_cases hg : pat ≠ [] ∧ pat <+: (a :: t)
      · rw [if_pos hg] at hc
        rcases List.mem_append.mp hc with hrep | hrec
        · exact Or.inr hrep
        · have hlen : ((a :: t).drop pat.length).length ≤ n := by
            have h1 : 1 ≤ pat.length := by
              cases hp : pat with
              | nil => exact absurd hp hg.1
              | cons x l => simp
            simp only [List.length_drop, List.length_cons]
            omega
          rcases ih _ hlen c hrec with hmem | hrep
          · exact Or.inl (List.drop_subset _ _ hmem)
          · exact Or.inr hrep
      · rw [if_neg hg] at hc
        rcases List.mem_cons.mp hc with rfl | hrec
        · exact Or.inl (by simp)
        · rcases ih t (by omega) c hrec with hmem | hrep
          · exact Or.inl (by simp [hmem])
          · exact Or.inr hrep

theorem countOcc_eq_zero_iff (pat : List Nat) (hpat : pat ≠ []) :
    ∀ n (s : List Nat), s.length ≤ n → (countOcc pat s = 0 ↔ ¬ pat <:+: s) := by
  intro n
  induction n with
  | zero =>
    intro s hn
    cases s with
    | nil =>
      rw [countOcc_nil]
      simp [List.infix_nil, hpat]
    | cons a t => simp at hn
  | succ n ih =>
    intro s hn
    cases s with
    | nil =>
      rw [countOcc_nil]
      simp [List.infix_nil, hpat]
    | cons a t =>
      simp only [List.length_cons] at hn
      rw [countOcc_cons]
      by_cases hp : pat <+: (a :: t)
      · rw [if_pos ⟨hpat, hp⟩]
        constructor
        · intro h; omega
        · intro h; exact absurd hp.isInfix h
      · rw [if_neg (fun hcon => hp hcon.2)]
        rw [ih t (by omega)]
        constructor
        · intro h hcon
          rcases List.infix_cons_iff.mp hcon with h1 | h2
          · exact hp h1
          · exact h h2
        · intro h hcon
          exact h (List.infix_cons_iff.mpr (Or.inr hcon))

/-- A nonempty pattern-free word (no `'#'` = 35) that is a prefix of the
replacement output is already a prefix of the input: the scan only ever
inserts `"#0"`, whose first character is `'#'`. -/
theorem prefix_replace_missing : ∀ n (u : List Nat), u.length ≤ n →
    ∀ w : List Nat, w ≠ [] → 35 ∉ w →
      w <+: replaceList missingCp zeroCp u → w <+: u := by
  intro n
  induction n with
  | zero =>
    intro u hn w hw _ hpre
    cases u with
    | nil =>
      rw [replaceList_nil] at hpre
      exact absurd (List.prefix_nil.mp hpre) hw
    | cons a t => simp at hn
  | succ n ih =>
    intro u hn w hw h35 hpre
    cases u with
    | nil =>
      rw [replaceList_nil] at hpre
      exact absurd (List.prefix_nil.mp hpre) hw
    | cons a t =>
      simp only [List.length_cons] at hn
      rw [replaceList_cons] at hpre
      by_cases hg : missingCp ≠ [] ∧ missingCp <+: (a :: t)
      · rw [if_pos hg] at hpre
        cases w with
        | nil => exact absurd rfl hw
        | cons x w' =>
          have hx : x = 35 := by
            have : zeroCp ++ replaceList missingCp zeroCp ((a :: t).drop missingCp.length)
                = 35 :: 48 :: replaceList missingCp zeroCp ((a :: t).drop missingCp.length) := rfl
            rw [this, List.cons_prefix_cons] at hpre
            exact hpre.1
          exact absurd (hx ▸ List.mem_cons_self x w') h35
      · rw [if_neg hg] at hpre
        cases w with
        | nil => exact absurd rfl hw
        | cons x w' =>
          rw [List.cons_prefix_cons] at hpre
          obtain ⟨rfl, hpre'⟩ := hpre
          cases hw' : w' with
          | nil => exact List.cons_prefix_cons.mpr ⟨rfl, List.nil_prefix⟩
          | cons y w'' =>
            have h35' : 35 ∉ w' := fun hmem => h35 (List.mem_cons_of_mem _ hmem)
            have := ih t (by omega) w' (by rw [hw']; simp) h35' (hw' ▸ hpre')
            exact List.cons_prefix_cons.mpr ⟨rfl, hw' ▸ this⟩

/-- After replacement there is no occurrence of `"#missing"` left anywhere. -/
theorem missing_not_infix_replace : ∀ n (u : List Nat), u.length ≤ n →
    ¬ missingCp <:+: replaceList missingCp zeroCp u := by
  intro n
  induction n with
  | zero =>
    intro u hn hinf
    cases u with
    | nil =>
      rw [replaceList_nil] at hinf
      exact absurd (List.infix_nil.mp hinf) (by simp [missingCp])
    | cons a t => simp at hn
  | succ n ih =>
    intro u hn hinf
    cases u with
    | nil =>
      rw [replaceList_nil] at hinf
      exact absurd (List.infix_nil.mp hinf) (by simp [missingCp])
    | cons a t =>
      simp only [List.length_cons] at hn
      rw [replaceList_cons] at hinf
      by_cases hg : missingCp ≠ [] ∧ missingCp <+: (a :: t)
      · rw [if_pos hg] at hinf
        have hstep : zeroCp ++ replaceList missingCp zeroCp ((a :: t).drop missingCp.length)
            = 35 :: 48 :: replaceList missingCp zeroCp ((a :: t).drop missingCp.length) := rfl
        rw [hstep] at hinf
        have hdroplen : ((a :: t).drop missingCp.length).length ≤ n := by
          simp only [List.length_drop, List.length_cons]
          have : missingCp.length = 8 := rfl
          omega
        rcases List.infix_cons_iff.mp hinf with hp | hinf2
        · rw [show missingCp = 35 :: [109, 105, 115, 115, 105, 110, 103] from rfl,
            List.cons_prefix_cons, List.cons_prefix_cons] at hp
          omega
        · rcases List.infix_cons_iff.mp hinf2 with hp | hinf3
          · rw [show missingCp = 35 :: [109, 105, 115, 115, 105, 110, 103] from rfl,
              List.cons_prefix_cons] at hp
            omega
          · exact ih _ hdroplen hinf3
      · rw [if_neg hg] at hinf
        rcases List.infix_cons_iff.mp hinf with hp | hinf2
        · rw [show missingCp = 35 :: [109, 105, 115, 115, 105, 110, 103] from rfl,
            List.cons_prefix_cons] at hp
          obtain ⟨ha, hp'⟩ := hp
          have htail := prefix_replace_missing t.length t le_rfl
            [109, 105, 115, 115, 105, 110, 103] (by simp) (by decide) hp'
          exact hg ⟨by simp [missingCp],
            ha ▸ List.cons_prefix_cons.mpr ⟨rfl, htail⟩⟩
        · exact ih t (by omega) hinf2

theorem joinWith_single (sep p : List Nat) : joinWith sep [p] = p := rfl

theorem joinWith_cons_cons (sep p q : List Nat) (rest : List (List Nat)) :
    joinWith sep (p :: q :: rest) = p ++ sep ++ joinWith sep (q :: rest) := rfl

theorem joinWith_cons_head (sep : List Nat) (c : Nat) (p : List Nat) (ps : List (List Nat)) :
    joinWith sep ((c :: p) :: ps) = c :: joinWith sep (p :: ps) := by
  cases ps with
  | nil => rfl
  | cons q qs => rw [joinWith_cons_cons, joinWith_cons_cons]; simp

theorem joinWith_head_append (sep p : List Nat) (ps : List (List Nat)) :
    ∃ r, joinWith sep (p :: ps) = p ++ r := by
  cases ps with
  | nil => exact ⟨[], by simp [joinWith_single]⟩
  | cons q qs => exact ⟨sep ++ joinWith sep (q :: qs), by rw [joinWith_cons_cons]; simp⟩

/-- `splitOnList` decomposes a string at exactly the (leftmost,
non-overlapping) occurrences of the pattern: joining the parts with the
pattern gives back the original, joining with the replacement gives the
`replaceList` output, there is one more part than occurrences, and no part
contains the pattern. -/
theorem splitOn_spec (pat rep : List Nat) (hpat : pat ≠ []) : ∀ n (s : List Nat),
    s.length ≤ n →
    joinWith pat (splitOnList pat s) = s ∧
    joinWith rep (splitOnList pat s) = replaceList pat rep s ∧
    (splitOnList pat s).length = countOcc pat s + 1 ∧
    ∀ p ∈ splitOnList pat s, ¬ pat <:+: p := by
  intro n
  induction n with
  | zero =>
    intro s hn
    cases s with
    | nil =>
      rw [splitOnList_nil]
      refine ⟨rfl, by rw [replaceList_nil]; rfl, by rw [countOcc_nil]; rfl, ?_⟩
      intro p hp
      rw [List.mem_singleton] at hp
      subst hp
      exact fun hcon => hpat (List.infix_nil.mp hcon)
    | cons c t => simp at hn
  | succ n ih =>
    intro s hn
    cases s with
    | nil =>
      rw [splitOnList_nil]
      refine ⟨rfl, by rw [replaceList_nil]; rfl, by rw [countOcc_nil]; rfl, ?_⟩
      intro p hp
      rw [List.mem_singleton] at hp
      subst hp
      exact fun hcon => hpat (List.infix_nil.mp hcon)
    | cons c t =>
      simp only [List.length_cons] at hn
      by_cases hp : pat <+: (c :: t)
      · obtain ⟨u, hu⟩ := hp
        have hp' : pat <+: (c :: t) := ⟨u, hu⟩
        have hdrop : (c :: t).drop pat.length = u := by rw [← hu, List.drop_left]
        have hplen : 1 ≤ pat.length := by
          cases hq : pat with
          | nil => exact absurd hq hpat
          | cons x l => simp
        have hulen : u.length ≤ n := by
          have hlen := congrArg List.length hu
          simp only [List.length_append, List.length_cons] at hlen
          omega
        obtain ⟨j1, j2, jl, jn⟩ := ih u hulen
        rw [splitOnList_cons, if_pos ⟨hpat, hp'⟩, hdrop,
          replaceList_cons, if_pos ⟨hpat, hp'⟩, hdrop,
          countOcc_cons, if_pos ⟨hpat, hp'⟩, hdrop]
        cases heq : splitOnList pat u with
        | nil => rw [heq] at jl; simp at jl
        | cons q qs =>
          rw [heq] at j1 j2 jl jn
          refine ⟨?_, ?_, ?_, ?_⟩
          · rw [joinWith_cons_cons, j1]
            simp [hu]
          · rw [joinWith_cons_cons, j2]
            simp
          · simp only [List.length_cons] at jl ⊢
            omega
          · intro p hpmem
            rcases List.mem_cons.mp hpmem with rfl | hmem
            · exact fun hcon => hpat (List.infix_nil.mp hcon)
            · exact jn p hmem
      · have hg : ¬ (pat ≠ [] ∧ pat <+: (c :: t)) := fun hcon => hp hcon.2
        obtain ⟨j1, j2, jl, jn⟩ := ih t (by omega)
        rw [splitOnList_cons, if_neg hg, replaceList_cons, if_neg hg,
          countOcc_cons, if_neg hg]
        cases heq : splitOnList pat t with
        | nil => rw [heq] at jl; simp at jl
        | cons p ps =>
          rw [heq] at j1 j2 jl jn
          have hmatch : (match p :: ps with
              | [] => [[c]]
              | x :: xs => (c :: x) :: xs : List (List Nat)) = (c :: p) :: ps := rfl
          rw [hmatch]
          refine ⟨?_, ?_, ?_, ?_⟩
          · rw [joinWith_cons_head, j1]
          · rw [joinWith_cons_head, j2]
          · simp only [List.length_cons] at jl ⊢
            omega
          · intro q hqmem
            rcases List.mem_cons.mp hqmem with rfl | hmem
            · intro hcon
              rcases List.infix_cons_iff.mp hcon with hpre | hinf
              · obtain ⟨r, hr⟩ := joinWith_head_append pat p ps
                rw [j1] at hr
                exact hp (by
                  have : (c :: p) ++ r = c :: t := by rw [List.cons_append, ← hr]
                  exact this ▸ hpre.trans (List.prefix_append (c :: p) r))
              · exact jn p (by simp) hinf
            · exact jn q (by simp [hmem])

/-! ## Archive model

`ZEntry` is one zip entry: its name, the result of reading its raw bytes
(`none` models a read that raises, e.g. a corrupt member) and its
`compress_type`; `ZArchive.corrupt` models an archive file that
`zipfile.ZipFile(path)` refuses to open. -/

structure ZEntry where
  filename : List Char
  data : Option (List Nat)
  compressType : Nat
deriving DecidableEq

inductive ZArchive where
  | corrupt : ZArchive
  | entries : List ZEntry → ZArchive
deriving DecidableEq

/-- The selector used by both the scanner and the patcher:
`file_path.endswith('.json') and 'models/item/' in file_path`. -/
def isTargetName (n : List Char) : Bool :=
  (".json".toList.isSuffixOf n) && decide ("models/item/".toList <:+: n)

/-- `check_if_has_models`: true iff some entry name matches the selector;
returns false when the archive cannot be opened (`except Exception`). -/
def check_if_has_models : ZArchive → Bool
  | .corrupt => false
  | .entries l => l.any (fun e => isTargetName e.filename)

/-- `zip_ref.read(name)` resolves the name through `NameToInfo`, which maps a
name to the *last* entry bearing it; `none` when that read raises. -/
def readByName (l : List ZEntry) (n : List Char) : Option (List Nat) :=
  match (l.filter (fun e => e.filename == n)).getLast? with
  | some e => e.data
  | none => none

/-- One iteration of the entry loop in `fix_missing_textures_in_memory`,
producing the value stored into `temp_buffer[file_info.filename]` together
with the "this entry was fixed" flag; `none` when the iteration raises
(the read fails — also in the inner `except` fallback, which re-reads). -/
def fixEntryStep (arc : List ZEntry) (e : ZEntry) : Option (List Nat × Bool) :=
  if isTargetName e.filename then
    match readByName arc e.filename with
    | none => none
    | some bytes =>
      match utf8Decode bytes with
      | some text =>
        if missingCp <:+: text then
          some (utf8Encode (replaceList missingCp zeroCp text), true)
        else
          some (utf8Encode text, false)
      | none => some (bytes, false)
  else
    match readByName arc e.filename with
    | none => none
    | some bytes => some (bytes, false)

/-- `temp_buffer`: a Python dict from entry name to `(content, file_info)`,
in insertion order. -/
abbrev Buffer := List (List Char × List Nat × ZEntry)

instance : DecidableEq (List Char × List Nat × ZEntry) := by infer_instance

instance : DecidableEq Buffer := by infer_instance

instance : DecidableEq (Bool × Nat × Option Buffer) := by infer_instance

/-- Python dict assignment `d[k] = v`: overwrites in place (keeping the key's
position) if the key exists, else appends. -/
def dictInsert (k : List Char) (v : List Nat × ZEntry) : Buffer → Buffer
  | [] => [(k, v)]
  | (k', v') :: rest =>
    if k' = k then (k', v) :: rest else (k', v') :: dictInsert k v rest

/-- The entry loop of `fix_missing_textures_in_memory` over the remaining
entries, threading `modified`, `count_fixed` and the buffer. -/
def fixLoop (arc : List ZEntry) :
    List ZEntry → Bool → Nat → Buffer → Option (Bool × Nat × Buffer)
  | [], m, cnt, buf => some (m, cnt, buf)
  | e :: rest, m, cnt, buf =>
    match fixEntryStep arc e with
    | none => none
    | some (content, fixedHere) =>
      fixLoop arc rest (m || fixedHere) (if fixedHere then cnt + 1 else cnt)
        (dictInsert e.filename (content, e) buf)

/-- `fix_missing_textures_in_memory`: returns `(modified, count_fixed,
temp_buffer)`; `(False, 0, None)` when anything raises (`except Exception`). -/
def fix_missing_textures_in_memory : ZArchive → Bool × Nat × Option Buffer
  | .corrupt => (false, 0, none)
  | .entries l =>
    match fixLoop l l false 0 [] with
    | none => (false, 0, none)
    | some (m, cnt, buf) => (m, cnt, some buf)

/-- The archive written from the buffer: `zipf.writestr(file_info, content)`
for each buffer item in order; `writestr` with a `ZipInfo` argument reuses its
filename and `compress_type` (the `ZIP_DEFLATED` default applies only to
plain-string names). -/
def writtenEntries (buf : Buffer) : List ZEntry :=
  buf.map (fun kv => ⟨kv.2.2.filename, some kv.2.1, kv.2.2.compressType⟩)

/-- The content that ends up in the buffer for an entry (assuming its read
succeeds; junk `[]` otherwise). -/
def entryContent (e : ZEntry) : List Nat :=
  match e.data with
  | none => []
  | some bytes =>
    if isTargetName e.filename then
      match utf8Decode bytes with
      | some text =>
        if missingCp <:+: text then utf8Encode (replaceList missingCp zeroCp text)
        else utf8Encode text
      | none => bytes
    else bytes

/-- Whether the entry loop counts this entry as fixed. -/
def entryFlag (e : ZEntry) : Bool :=
  match e.data with
  | none => false
  | some bytes =>
    if isTargetName e.filename then
      match utf8Decode bytes with
      | some text => if missingCp <:+: text then true else false
      | none => false
    else false

/-- The entry as re-emitted into the rewritten archive. -/
def outEnt (e : ZEntry) : ZEntry := ⟨e.filename, some (entryContent e), e.compressType⟩

/-- The buffer produced by a successful loop over entries with unique names. -/
def bufferOf (l : List ZEntry) : Buffer := l.map (fun e => (e.filename, entryContent e, e))

theorem writtenEntries_bufferOf (l : List ZEntry) :
    writtenEntries (bufferOf l) = l.map outEnt := by
  simp [writtenEntries, bufferOf, outEnt]

theorem readByName_of_nodup (l : List ZEntry)
    (hnd : (l.map ZEntry.filename).Nodup) :
    ∀ e ∈ l, readByName l e.filename = e.data := by
  induction l with
  | nil => intro e he; exact absurd he (by simp)
  | cons a rest ih =>
    simp only [List.map_cons, List.nodup_cons] at hnd
    obtain ⟨hafresh, hndrest⟩ := hnd
    intro e he
    rcases List.mem_cons.mp he with rfl | hmem
    · have hfilter : rest.filter (fun x => x.filename == e.filename) = [] := by
        rw [List.filter_eq_nil_iff]
        intro x hx hbeq
        rw [beq_iff_eq] at hbeq
        exact hafresh (hbeq ▸ List.mem_map_of_mem ZEntry.filename hx)
      rw [readByName, List.filter_cons_of_pos (by simp), hfilter]
      rfl
    · have hne : a.filename ≠ e.filename := by
        intro hcon
        exact hafresh (hcon ▸ List.mem_map_of_mem ZEntry.filename hmem)
      rw [readByName, List.filter_cons_of_neg (by simpa using hne)]
      exact ih hndrest e hmem

theorem fixEntryStep_of_read (l : List ZEntry) (e : ZEntry) (bytes : List Nat)
    (hread : readByName l e.filename = e.data) (hdata : e.data = some bytes) :
    fixEntryStep l e = some (entryContent e, entryFlag e) := by
  by_cases htgt : isTargetName e.filename
  · cases hdec : utf8Decode bytes with
    | none => simp [fixEntryStep, entryContent, entryFlag, hread, hdata, htgt, hdec]
    | some text =>
      by_cases hmiss : missingCp <:+: text
      · simp [fixEntryStep, entryContent, entryFlag, hread, hdata, htgt, hdec, hmiss]
      · simp [fixEntryStep, entryContent, entryFlag, hread, hdata, htgt, hdec, hmiss]
  · simp [fixEntryStep, entryContent, entryFlag, hread, hdata, htgt]

theorem fixEntryStep_none (l : List ZEntry) (e : ZEntry)
    (hread : readByName l e.filename = e.data) (hdata : e.data = none) :
    fixEntryStep l e = none := by
  rw [fixEntryStep]
  rw [hdata] at hread
  by_cases htgt : isTargetName e.filename
  · rw [if_pos htgt, hread]
  · rw [if_neg htgt, hread]

theorem dictInsert_append (k : List Char) (v : List Nat × ZEntry) :
    ∀ buf : Buffer, k ∉ buf.map Prod.fst → dictInsert k v buf = buf ++ [(k, v)] := by
  intro buf
  induction buf with
  | nil => intro _; rfl
  | cons kv rest ih =>
    intro hk
    simp only [List.map_cons, List.mem_cons, not_or] at hk
    obtain ⟨hne, hrest⟩ := hk
    obtain ⟨k', v'⟩ := kv
    rw [dictInsert, if_neg (by simpa using fun h => hne h.symm)]
    rw [ih hrest]
    rfl

theorem fixLoop_eq (l : List ZEntry) :
    ∀ (rest : List ZEntry) (m : Bool) (cnt : Nat) (buf : Buffer),
      (∀ e ∈ rest, fixEntryStep l e = some (entryContent e, entryFlag e)) →
      (∀ e ∈ rest, e.filename ∉ buf.map Prod.fst) →
      (rest.map ZEntry.filename).Nodup →
      fixLoop l rest m cnt buf =
        some (m || rest.any entryFlag, cnt + rest.countP entryFlag, buf ++ bufferOf rest) := by
  intro rest
  induction rest with
  | nil =>
    intro m cnt buf _ _ _
    simp [fixLoop, bufferOf]
  | cons e rest' ih =>
    intro m cnt buf hstep hfresh hnd
    simp only [List.map_cons, List.nodup_cons] at hnd
    obtain ⟨hefresh, hndrest⟩ := hnd
    rw [fixLoop, hstep e (by simp)]
    dsimp only []
    rw [dictInsert_append e.filename (entryContent e, e) buf (hfresh e (by simp))]
    rw [ih (m || entryFlag e) (if entryFlag e then cnt + 1 else cnt)
      (buf ++ [(e.filename, entryContent e, e)])
      (fun x hx => hstep x (by simp [hx]))
      (fun x hx => by
        simp only [List.map_append, List.mem_append, not_or]
        refine ⟨hfresh x (by simp [hx]), ?_⟩
        simp only [List.map_cons, List.map_nil, List.mem_singleton]
        intro hcon
        exact hefresh (hcon ▸ List.mem_map_of_mem ZEntry.filename hx))
      hndrest]
    have hany : ((m || entryFlag e) || rest'.any entryFlag)
        = (m || (e :: rest').any entryFlag) := by
      simp [List.any_cons, Bool.or_assoc]
    have hcnt : (if entryFlag e then cnt + 1 else cnt) + rest'.countP entryFlag
        = cnt + (e :: rest').countP entryFlag := by
      rw [List.countP_cons]
      by_cases hf : entryFlag e
      · simp [hf]; omega
      · simp [hf]
    have hbuf : (buf ++ [(e.filename, entryContent e, e)]) ++ bufferOf rest'
        = buf ++ bufferOf (e :: rest') := by
      simp [bufferOf]
    rw [hany, hcnt, hbuf]

/-- Main structural description of the patcher on an archive with unique
entry names and fully readable entries. -/
theorem fix_entries_eq (l : List ZEntry)
    (hnd : (l.map ZEntry.filename).Nodup)
    (hrd : ∀ e ∈ l, e.data.isSome = true) :
    fix_missing_textures_in_memory (.entries l) =
      (l.any entryFlag, l.countP entryFlag, some (bufferOf l)) := by
  have hread := readByName_of_nodup l hnd
  have hstep : ∀ e ∈ l, fixEntryStep l e = some (entryContent e, entryFlag e) := by
    intro e he
    cases hdata : e.data with
    | none =>
      have hcon := hrd e he
      rw [hdata] at hcon
      simp at hcon
    | some bytes => exact fixEntryStep_of_read l e bytes (hread e he) hdata
  rw [fix_missing_textures_in_memory]
  rw [fixLoop_eq l l false 0 [] hstep (by simp) hnd]
  simp

theorem fix_corrupt : fix_missing_textures_in_memory .corrupt = (false, 0, none) := rfl

/-! ## Filesystem and driver model

One archive occupies three paths: the archive itself (`zip_path`), its backup
(`backup_<name>`) and the temporary rewrite file (`zip_path + '.tmp'`).
A path holds `none` when no file exists there.  `Faults` injects a failure
(exception) into each of the four filesystem operations of the patch step.
`runArchive` is the body of the per-archive loop of `process_zip_files`:
scan, patch in memory, `total_fixed += fixed_count`, conditional backup,
temp write, `os.remove(zip_path)`, `os.rename(temp_zip, zip_path)`, with the
`except` handler that records a failure and deletes the temp file if it
exists.  `trace` lists the filesystem states passed through, in order. -/

structure FS where
  orig : Option ZArchive
  backup : Option ZArchive
  temp : Option ZArchive
deriving DecidableEq

structure Faults where
  backupFails : Bool
  writeFails : Bool
  removeFails : Bool
  renameFails : Bool
deriving DecidableEq

inductive Outcome where
  | skipped : Outcome
  | clean : Outcome
  | fixedOk : Nat → Outcome
  | failed : Outcome
deriving DecidableEq

structure RunResult where
  fs : FS
  outcome : Outcome
  addedToTotal : Nat
  trace : List FS
deriving DecidableEq

def setBackup (fs : FS) (b : Option ZArchive) : FS := ⟨fs.orig, b, fs.temp⟩

def setTemp (fs : FS) (t : Option ZArchive) : FS := ⟨fs.orig, fs.backup, t⟩

def setOrig (fs : FS) (o : Option ZArchive) : FS := ⟨o, fs.backup, fs.temp⟩

/-- The `except` handler's cleanup: `if os.path.exists(temp_zip):
os.remove(temp_zip)` — removes the temp file whenever it exists. -/
def cleanupTemp (fs : FS) : FS := setTemp fs none

def noFaults : Faults := ⟨false, false, false, false⟩

def runArchive (fl : Faults) (createBackups : Bool) (fs0 : FS) : RunResult :=
  match fs0.orig with
  | none => ⟨fs0, .skipped, 0, []⟩
  | some arc =>
    if check_if_has_models arc then
      match fix_missing_textures_in_memory arc with
      | (false, _, _) => ⟨fs0, .clean, 0, []⟩
      | (true, n, optBuf) =>
        if createBackups ∧ fs0.backup = none ∧ fl.backupFails then
          ⟨cleanupTemp fs0, .failed, n, [cleanupTemp fs0]⟩
        else
          let fs1 := if createBackups ∧ fs0.backup = none then setBackup fs0 (some arc) else fs0
          match optBuf with
          | none =>
            ⟨cleanupTemp fs1, .failed, n, [fs1, cleanupTemp fs1]⟩
          | some buf =>
            if fl.writeFails then
              ⟨cleanupTemp (setTemp fs1 (some .corrupt)), .failed, n,
                [fs1, setTemp fs1 (some .corrupt), cleanupTemp (setTemp fs1 (some .corrupt))]⟩
            else
              let w : ZArchive := .entries (writtenEntries buf)
              let fs2 := setTemp fs1 (some w)
              if fl.removeFails then
                ⟨cleanupTemp fs2, .failed, n, [fs1, fs2, cleanupTemp fs2]⟩
              else
                let fs3 := setOrig fs2 none
                if fl.renameFails then
                  ⟨cleanupTemp fs3, .failed, n, [fs1, fs2, fs3, cleanupTemp fs3]⟩
                else
                  let fs4 := setTemp (setOrig fs3 (some w)) none
                  ⟨fs4, .fixedOk n, n, [fs1, fs2, fs3, fs4]⟩
    else ⟨fs0, .skipped, 0, []⟩

/-- The batch driver: processes each archive in listing order, accumulating
`total_fixed` and the per-archive outcomes. -/
def runBatch (createBackups : Bool) : List (Faults × FS) → Nat × List Outcome
  | [] => (0, [])
  | (fl, fs) :: rest =>
    let r := runArchive fl createBackups fs
    let rb := runBatch createBackups rest
    (r.addedToTotal + rb.1, r.outcome :: rb.2)

theorem runArchive_no_orig (fl : Faults) (cb : Bool) (fs : FS) (h : fs.orig = none) :
    runArchive fl cb fs = ⟨fs, .skipped, 0, []⟩ := by
  rw [runArchive, h]

theorem runArchive_skipped (fl : Faults) (cb : Bool) (fs : FS) (arc : ZArchive)
    (h : fs.orig = some arc) (hchk : check_if_has_models arc = false) :
    runArchive fl cb fs = ⟨fs, .skipped, 0, []⟩ := by
  rw [runArchive, h]
  dsimp only []
  rw [if_neg (by simp [hchk])]

theorem runArchive_clean (fl : Faults) (cb : Bool) (fs : FS) (arc : ZArchive)
    (h : fs.orig = some arc) (hchk : check_if_has_models arc = true)
    (hfix : (fix_missing_textures_in_memory arc).1 = false) :
    runArchive fl cb fs = ⟨fs, .clean, 0, []⟩ := by
  rw [runArchive, h]
  dsimp only []
  rw [if_pos (by simp [hchk])]
  rcases hfm : fix_missing_textures_in_memory arc with ⟨m, n, ob⟩
  rw [hfm] at hfix
  dsimp only [] at hfix
  subst hfix
  rfl

/-- An existing backup file is never touched by any run (the copy is guarded
by `if not os.path.exists(backup_path)`), whatever faults occur. -/
theorem runArchive_backup_stable (fl : Faults) (cb : Bool) (fs : FS) (b : ZArchive)
    (hb : fs.backup = some b) :
    (runArchive fl cb fs).fs.backup = some b ∧
      ∀ s ∈ (runArchive fl cb fs).trace, s.backup = some b := by
  rw [runArchive]
  cases horig : fs.orig with
  | none => exact ⟨hb, by simp⟩
  | some arc =>
    dsimp only []
    by_cases hchk : check_if_has_models arc = true
    · rw [if_pos hchk]
      rcases hfm : fix_missing_textures_in_memory arc with ⟨m, n, ob⟩
      cases m with
      | false => exact ⟨hb, by simp⟩
      | true =>
        dsimp only []
        have hc1 : ¬ (cb = true ∧ fs.backup = none ∧ fl.backupFails = true) := by
          rintro ⟨-, hcon, -⟩
          rw [hb] at hcon
          cases hcon
        rw [if_neg hc1]
        have hfs1 : (if cb = true ∧ fs.backup = none then setBackup fs (some arc) else fs)
            = fs := by
          rw [if_neg (by rintro ⟨-, hcon⟩; rw [hb] at hcon; cases hcon)]
        rw [hfs1]
        cases ob with
        | none =>
          refine ⟨by simp [cleanupTemp, setTemp, hb], ?_⟩
          intro s hs
          rcases List.mem_cons.mp hs with rfl | hs2
          · exact hb
          · rcases List.mem_singleton.mp hs2 with rfl
            simp [cleanupTemp, setTemp, hb]
        | some buf =>
          dsimp only []
          by_cases hw : fl.writeFails = true
          · rw [if_pos hw]
            refine ⟨by simp [cleanupTemp, setTemp, hb], ?_⟩
            intro s hs
            simp only [List.mem_cons, List.not_mem_nil, or_false] at hs
            rcases hs with rfl | rfl | rfl
            · exact hb
            · simp [setTemp, hb]
            · simp [cleanupTemp, setTemp, hb]
          · rw [if_neg hw]
            by_cases hr : fl.removeFails = true
            · rw [if_pos hr]
              refine ⟨by simp [cleanupTemp, setTemp, hb], ?_⟩
              intro s hs
              simp only [List.mem_cons, List.not_mem_nil, or_false] at hs
              rcases hs with rfl | rfl | rfl
              · exact hb
              · simp [setTemp, hb]
              · simp [cleanupTemp, setTemp, hb]
            · rw [if_neg hr]
              by_cases hrn : fl.renameFails = true
              · rw [if_pos hrn]
                refine ⟨by simp [cleanupTemp, setTemp, setOrig, hb], ?_⟩
                intro s hs
                simp only [List.mem_cons, List.not_mem_nil, or_false] at hs
                rcases hs with rfl | rfl | rfl | rfl
                · exact hb
                · simp [setTemp, hb]
                · simp [setOrig, setTemp, hb]
                · simp [cleanupTemp, setOrig, setTemp, hb]
              · rw [if_neg hrn]
                refine ⟨by simp [setTemp, setOrig, hb], ?_⟩
                intro s hs
                simp only [List.mem_cons, List.not_mem_nil, or_false] at hs
                rcases hs with rfl | rfl | rfl | rfl
                · exact hb
                · simp [setTemp, hb]
                · simp [setOrig, setTemp, hb]
                · simp [setTemp, setOrig, hb]
    · rw [if_neg hchk]
      exact ⟨hb, by simp⟩

theorem runArchive_success (fl : Faults) (cb : Bool) (fs : FS) (arc : ZArchive)
    (n : Nat) (buf : Buffer)
    (horig : fs.orig = some arc) (hchk : check_if_has_models arc = true)
    (hfix : fix_missing_textures_in_memory arc = (true, n, some buf))
    (hnb : ¬ (cb = true ∧ fs.backup = none ∧ fl.backupFails = true))
    (hw : fl.writeFails = false) (hr : fl.removeFails = false)
    (hrn : fl.renameFails = false) :
    (runArchive fl cb fs).fs =
      ⟨some (.entries (writtenEntries buf)),
        if cb = true ∧ fs.backup = none then some arc else fs.backup, none⟩ ∧
    (runArchive fl cb fs).outcome = .fixedOk n ∧
    (runArchive fl cb fs).addedToTotal = n := by
  rw [runArchive, horig]
  dsimp only []
  rw [if_pos hchk, hfix]
  dsimp only []
  rw [if_neg hnb]
  rw [if_neg (by simp [hw]), if_neg (by simp [hr]), if_neg (by simp [hrn])]
  refine ⟨?_, rfl, rfl⟩
  by_cases hcb : cb = true ∧ fs.backup = none
  · rw [if_pos hcb, if_pos hcb]
    simp [setTemp, setOrig, setBackup]
  · rw [if_neg hcb, if_neg hcb]
    simp [setTemp, setOrig]

theorem runArchive_backup_fail (fl : Faults) (cb : Bool) (fs : FS) (arc : ZArchive)
    (n : Nat) (ob : Option Buffer)
    (horig : fs.orig = some arc) (hchk : check_if_has_models arc = true)
    (hfix : fix_missing_textures_in_memory arc = (true, n, ob))
    (hcond : cb = true ∧ fs.backup = none ∧ fl.backupFails = true) :
    runArchive fl cb fs = ⟨cleanupTemp fs, .failed, n, [cleanupTemp fs]⟩ := by
  rw [runArchive, horig]
  dsimp only []
  rw [if_pos hchk, hfix]
  dsimp only []
  rw [if_pos hcond]

theorem runArchive_write_fail (fl : Faults) (cb : Bool) (fs : FS) (arc : ZArchive)
    (n : Nat) (buf : Buffer)
    (horig : fs.orig = some arc) (hchk : check_if_has_models arc = true)
    (hfix : fix_missing_textures_in_memory arc = (true, n, some buf))
    (hnb : ¬ (cb = true ∧ fs.backup = none ∧ fl.backupFails = true))
    (hw : fl.writeFails = true) :
    (runArchive fl cb fs).outcome = .failed ∧
    (runArchive fl cb fs).addedToTotal = n ∧
    (runArchive fl cb fs).fs.orig = fs.orig ∧
    (runArchive fl cb fs).fs.temp = none := by
  rw [runArchive, horig]
  dsimp only []
  rw [if_pos hchk, hfix]
  dsimp only []
  rw [if_neg hnb, if_pos hw]
  refine ⟨rfl, rfl, ?_, rfl⟩
  by_cases hcb : cb = true ∧ fs.backup = none
  · rw [if_pos hcb]
    simp [cleanupTemp, setTemp, setBackup, horig]
  · rw [if_neg hcb]
    simp [cleanupTemp, setTemp, horig]

/-- With backups enabled and no pre-existing backup, once the original has
been removed every filesystem state of the run (whatever faults occur) still
holds the backup copy of the original archive. -/
theorem runArchive_backup_before_remove (fl : Faults) (fs : FS) (arc : ZArchive)
    (n : Nat) (ob : Option Buffer)
    (horig : fs.orig = some arc) (hchk : check_if_has_models arc = true)
    (hfix : fix_missing_textures_in_memory arc = (true, n, ob))
    (hb : fs.backup = none) :
    ∀ s ∈ (runArchive fl true fs).trace, s.orig = none → s.backup = some arc := by
  rw [runArchive, horig]
  dsimp only []
  rw [if_pos hchk, hfix]
  dsimp only []
  by_cases hbf : fl.backupFails = true
  · rw [if_pos ⟨rfl, hb, hbf⟩]
    intro s hs
    rcases List.mem_singleton.mp hs with rfl
    intro hcon
    rw [cleanupTemp, setTemp] at hcon
    dsimp only [] at hcon
    rw [horig] at hcon
    cases hcon
  · rw [if_neg (by rintro ⟨-, -, hcon⟩; exact hbf hcon)]
    rw [if_pos ⟨rfl, hb⟩]
    cases ob with
    | none =>
      intro s hs
      simp only [List.mem_cons, List.not_mem_nil, or_false] at hs
      rcases hs with rfl | rfl
      · intro hcon; rw [setBackup] at hcon; dsimp only [] at hcon
        rw [horig] at hcon; cases hcon
      · intro hcon; rw [cleanupTemp, setTemp, setBackup] at hcon; dsimp only [] at hcon
        rw [horig] at hcon; cases hcon
    | some buf =>
      dsimp only []
      by_cases hw : fl.writeFails = true
      · rw [if_pos hw]
        intro s hs
        simp only [List.mem_cons, List.not_mem_nil, or_false] at hs
        rcases hs with rfl | rfl | rfl
        · intro hcon; rw [setBackup] at hcon; dsimp only [] at hcon
          rw [horig] at hcon; cases hcon
        · intro hcon; rw [setTemp, setBackup] at hcon; dsimp only [] at hcon
          rw [horig] at hcon; cases hcon
        · intro hcon; rw [cleanupTemp, setTemp, setBackup] at hcon; dsimp only [] at hcon
          rw [horig] at hcon; cases hcon
      · rw [if_neg hw]
        by_cases hr : fl.removeFails = true
        · rw [if_pos hr]
          intro s hs
          simp only [List.mem_cons, List.not_mem_nil, or_false] at hs
          rcases hs with rfl | rfl | rfl
          · intro hcon; rw [setBackup] at hcon; dsimp only [] at hcon
            rw [horig] at hcon; cases hcon
          · intro hcon; rw [setTemp, setBackup] at hcon; dsimp only [] at hcon
            rw [horig] at hcon; cases hcon
          · intro hcon; rw [cleanupTemp, setTemp, setBackup] at hcon; dsimp only [] at hcon
            rw [horig] at hcon; cases hcon
        · rw [if_neg hr]
          by_cases hrn : fl.renameFails = true
          · rw [if_pos hrn]
            intro s hs
            simp only [List.mem_cons, List.not_mem_nil, or_false] at hs
            rcases hs with rfl | rfl | rfl | rfl
            · intro hcon; rw [setBackup] at hcon; dsimp only [] at hcon
              rw [horig] at hcon; cases hcon
            · intro hcon; rw [setTemp, setBackup] at hcon; dsimp only [] at hcon
              rw [horig] at hcon; cases hcon
            · intro _; simp [setOrig, setTemp, setBackup]
            · intro _; simp [cleanupTemp, setOrig, setTemp, setBackup]
          · rw [if_neg hrn]
            intro s hs
            simp only [List.mem_cons, List.not_mem_nil, or_false] at hs
            rcases hs with rfl | rfl | rfl | rfl
            · intro hcon; rw [setBackup] at hcon; dsimp only [] at hcon
              rw [horig] at hcon; cases hcon
            · intro hcon; rw [setTemp, setBackup] at hcon; dsimp only [] at hcon
              rw [horig] at hcon; cases hcon
            · intro _; simp [setOrig, setTemp, setBackup]
            · intro hcon; rw [setTemp, setOrig, setOrig, setTemp, setBackup] at hcon
              dsimp only [] at hcon; cases hcon

theorem fixEntryStep_flag_false (l : List ZEntry) (e : ZEntry)
    (hyp : isTargetName e.filename = true → ∀ bytes text,
      readByName l e.filename = some bytes → utf8Decode bytes = some text →
        ¬ missingCp <:+: text) :
    ∀ out, fixEntryStep l e = some out → out.2 = false := by
  intro out hout
  rw [fixEntryStep] at hout
  by_cases htgt : isTargetName e.filename
  · rw [if_pos htgt] at hout
    cases hread : readByName l e.filename with
    | none => rw [hread] at hout; cases hout
    | some bytes =>
      rw [hread] at hout
      dsimp only [] at hout
      cases hdec : utf8Decode bytes with
      | none =>
        rw [hdec] at hout
        dsimp only [] at hout
        cases hout
        rfl
      | some text =>
        rw [hdec] at hout
        dsimp only [] at hout
        rw [if_neg (hyp htgt bytes text hread hdec)] at hout
        cases hout
        rfl
  · rw [if_neg htgt] at hout
    cases hread : readByName l e.filename with
    | none => rw [hread] at hout; cases hout
    | some bytes =>
      rw [hread] at hout
      dsimp only [] at hout
      cases hout
      rfl

theorem fixLoop_no_missing (l : List ZEntry) :
    ∀ (rest : List ZEntry) (m : Bool) (cnt : Nat) (buf : Buffer),
      (∀ e ∈ rest, ∀ out, fixEntryStep l e = some out → out.2 = false) →
      fixLoop l rest m cnt buf = none ∨
        ∃ buf', fixLoop l rest m cnt buf = some (m, cnt, buf') := by
  intro rest
  induction rest with
  | nil => intro m cnt buf _; exact Or.inr ⟨buf, rfl⟩
  | cons e rest' ih =>
    intro m cnt buf hflag
    cases hstep : fixEntryStep l e with
    | none => exact Or.inl (by rw [fixLoop, hstep])
    | some out =>
      obtain ⟨content, flag⟩ := out
      have hf : flag = false := hflag e (by simp) (content, flag) hstep
      subst hf
      rw [fixLoop, hstep]
      dsimp only []
      rw [Bool.or_false, if_neg (by simp)]
      exact ih m cnt (dictInsert e.filename (content, e) buf)
        (fun x hx => hflag x (by simp [hx]))

/-- If no target entry of the archive decodes to text containing
`"#missing"`, the patcher reports `modified = False` and `count_fixed = 0`. -/
theorem fix_no_missing (l : List ZEntry)
    (hyp : ∀ e ∈ l, isTargetName e.filename = true → ∀ bytes text,
      readByName l e.filename = some bytes → utf8Decode bytes = some text →
        ¬ missingCp <:+: text) :
    (fix_missing_textures_in_memory (.entries l)).1 = false ∧
      (fix_missing_textures_in_memory (.entries l)).2.1 = 0 := by
  have hflag : ∀ e ∈ l, ∀ out, fixEntryStep l e = some out → out.2 = false :=
    fun e he => fixEntryStep_flag_false l e (hyp e he)
  rcases fixLoop_no_missing l l false 0 [] hflag with hnone | ⟨buf', hsome⟩
  · rw [fix_missing_textures_in_memory, hnone]
    exact ⟨rfl, rfl⟩
  · rw [fix_missing_textures_in_memory, hsome]
    exact ⟨rfl, rfl⟩

theorem outEnt_filename (e : ZEntry) : (outEnt e).filename = e.filename := rfl

theorem outEnt_compressType (e : ZEntry) : (outEnt e).compressType = e.compressType := rfl

theorem entryContent_mk (fn : List Char) (bytes : List Nat) (ct : Nat) :
    entryContent ⟨fn, some bytes, ct⟩ =
      if isTargetName fn then
        match utf8Decode bytes with
        | some text =>
          if missingCp <:+: text then utf8Encode (replaceList missingCp zeroCp text)
          else utf8Encode text
        | none => bytes
      else bytes := rfl

theorem entryFlag_mk (fn : List Char) (bytes : List Nat) (ct : Nat) :
    entryFlag ⟨fn, some bytes, ct⟩ =
      if isTargetName fn then
        match utf8Decode bytes with
        | some text => if missingCp <:+: text then true else false
        | none => false
      else false := rfl

/-- Applying the per-entry transform to an already-transformed entry changes
nothing and finds nothing to fix (entry-level idempotence). -/
theorem outEnt_stable (e : ZEntry) (bytes : List Nat) (hdata : e.data = some bytes) :
    entryContent (outEnt e) = entryContent e ∧ entryFlag (outEnt e) = false := by
  by_cases htgt : isTargetName e.filename
  · cases hdec : utf8Decode bytes with
    | none =>
      have hce : entryContent e = bytes := by
        simp [entryContent, hdata, htgt, hdec]
      constructor
      · rw [outEnt, entryContent_mk, if_pos htgt, hce, hdec]
      · rw [outEnt, entryFlag_mk, if_pos htgt, hce, hdec]
    | some text =>
      have hvalid : ∀ c ∈ text, validCp c := utf8_decode_valid bytes text hdec
      by_cases hmiss : missingCp <:+: text
      · have hce : entryContent e = utf8Encode (replaceList missingCp zeroCp text) := by
          simp [entryContent, hdata, htgt, hdec, hmiss]
        have hvalid2 : ∀ c ∈ replaceList missingCp zeroCp text, validCp c := by
          intro c hc
          rcases replace_mem missingCp zeroCp text.length text le_rfl c hc with hm | hz
          · exact hvalid c hm
          · rcases List.mem_cons.mp hz with rfl | hz2
            · exact ⟨by omega, by omega⟩
            · rcases List.mem_singleton.mp hz2 with rfl
              exact ⟨by omega, by omega⟩
        have hrt : utf8Decode (utf8Encode (replaceList missingCp zeroCp text))
            = some (replaceList missingCp zeroCp text) := utf8_roundtrip _ hvalid2
        have hnomiss : ¬ missingCp <:+: replaceList missingCp zeroCp text :=
          missing_not_infix_replace text.length text le_rfl
        constructor
        · rw [outEnt, entryContent_mk, if_pos htgt, hce, hrt]
          dsimp only []
          rw [if_neg hnomiss]
        · rw [outEnt, entryFlag_mk, if_pos htgt, hce, hrt]
          dsimp only []
          rw [if_neg hnomiss]
      · have hce : entryContent e = utf8Encode text := by
          simp [entryContent, hdata, htgt, hdec, hmiss]
        have hrt : utf8Decode (utf8Encode text) = some text := utf8_roundtrip _ hvalid
        constructor
        · rw [outEnt, entryContent_mk, if_pos htgt, hce, hrt]
          dsimp only []
          rw [if_neg hmiss]
        · rw [outEnt, entryFlag_mk, if_pos htgt, hce, hrt]
          dsimp only []
          rw [if_neg hmiss]
  · have hce : entryContent e = bytes := by
      simp [entryContent, hdata, htgt]
    constructor
    · rw [outEnt, entryContent_mk, if_neg htgt]
    · rw [outEnt, entryFlag_mk, if_neg htgt]

theorem runBatch_cons (cb : Bool) (fl : Faults) (fs : FS) (rest : List (Faults × FS)) :
    runBatch cb ((fl, fs) :: rest)
      = ((runArchive fl cb fs).addedToTotal + (runBatch cb rest).1,
         (runArchive fl cb fs).outcome :: (runBatch cb rest).2) := rfl

theorem runBatch_append (cb : Bool) (l1 l2 : List (Faults × FS)) :
    (runBatch cb (l1 ++ l2)).1 = (runBatch cb l1).1 + (runBatch cb l2).1 := by
  induction l1 with
  | nil => simp [runBatch]
  | cons j rest ih =>
    obtain ⟨fl, fs⟩ := j
    rw [List.cons_append, runBatch_cons, runBatch_cons]
    dsimp only []
    omega

/-- Archive-level idempotence: re-running the patcher over the rewritten
entries reports `(False, 0)` and re-produces exactly the same entries. -/
theorem fix_idempotent (l : List ZEntry)
    (hnd : (l.map ZEntry.filename).Nodup)
    (hrd : ∀ e ∈ l, e.data.isSome = true) :
    fix_missing_textures_in_memory (.entries (l.map outEnt))
      = (false, 0, some (bufferOf (l.map outEnt))) ∧
    writtenEntries (bufferOf (l.map outEnt)) = l.map outEnt := by
  have hnames : (l.map outEnt).map ZEntry.filename = l.map ZEntry.filename := by
    simp [outEnt]
  have hnd2 : ((l.map outEnt).map ZEntry.filename).Nodup := by
    rw [hnames]; exact hnd
  have hrd2 : ∀ e ∈ l.map outEnt, e.data.isSome = true := by
    intro e he
    obtain ⟨x, hx, rfl⟩ := List.mem_map.mp he
    simp [outEnt]
  have hmain := fix_entries_eq (l.map outEnt) hnd2 hrd2
  have hstab : ∀ e ∈ l,
      entryContent (outEnt e) = entryContent e ∧ entryFlag (outEnt e) = false := by
    intro e he
    cases hdata : e.data with
    | none =>
      have hcon := hrd e he
      rw [hdata] at hcon
      simp at hcon
    | some bytes => exact outEnt_stable e bytes hdata
  have hany : (l.map outEnt).any entryFlag = false := by
    rw [List.any_eq_false]
    intro e he
    obtain ⟨x, hx, rfl⟩ := List.mem_map.mp he
    simp [(hstab x hx).2]
  have hcnt : (l.map outEnt).countP entryFlag = 0 := by
    rw [List.countP_eq_zero]
    intro e he
    obtain ⟨x, hx, rfl⟩ := List.mem_map.mp he
    simp [(hstab x hx).2]
  constructor
  · rw [hmain, hany, hcnt]
  · rw [writtenEntries_bufferOf]
    have hid : ∀ e ∈ l.map outEnt, outEnt e = e := by
      intro e he
      obtain ⟨x, hx, rfl⟩ := List.mem_map.mp he
      conv_lhs => rw [outEnt]
      rw [(hstab x hx).1, outEnt_filename, outEnt_compressType]
      rfl
    calc (l.map outEnt).map outEnt = (l.map outEnt).map id := List.map_congr_left hid
      _ = l.map outEnt := List.map_id _

/-! ## Sample data for concrete runs -/

/-- Bytes of an ASCII string (its UTF-8 encoding). -/
def asciiBytes (s : String) : List Nat := s.toList.map Char.toNat

def eMissing : ZEntry := ⟨"models/item/sword.json".toList, some (asciiBytes "layer0=#missing"), 8⟩

def ePng : ZEntry := ⟨"assets/icon.png".toList, some [137, 80, 78, 71], 0⟩

def eClean : ZEntry := ⟨"models/item/ok.json".toList, some (asciiBytes "layer0=#0"), 8⟩

def eBadRead : ZEntry := ⟨"models/item/bad.json".toList, none, 8⟩

def arcGood : ZArchive := .entries [eMissing, ePng]

def arcClean : ZArchive := .entries [eClean, ePng]

def arcBadRead : ZArchive := .entries [eBadRead]

def fsGood : FS := ⟨some arcGood, none, none⟩

/-- Claim C1: in a patch run that has removed the original archive but whose
rename of the temp file then fails, the claim says the temporary patched file
is left on disk for manual recovery; evaluating the code's error path at such
a run shows the `except` handler deletes the temp file (`fs.temp = none`)
while the original is already gone (`fs.orig = none`), so the patched data is
destroyed rather than left for recovery (the spec's §4.2/§7 carve-out is not
implemented). -/
theorem C1_rename_fail_deletes_temp :
    (runArchive ⟨false, false, false, true⟩ true fsGood).outcome = .failed ∧
    (runArchive ⟨false, false, false, true⟩ true fsGood).fs.orig = none ∧
    (runArchive ⟨false, false, false, true⟩ true fsGood).fs.temp = none ∧
    (runArchive ⟨false, false, false, true⟩ true fsGood).fs.backup = some arcGood := by
  decide

/-- Claim C2 counterexample: an archive that passes the eligibility scan but
whose only entry cannot be read during the patch step is recorded as Clean
(a success with zero fixes), not Failed, because
`fix_missing_textures_in_memory` swallows the exception and returns
`(False, 0, None)` and the driver treats `not modified` as "No issues". -/
theorem C2_read_error_recorded_clean :
    check_if_has_models arcBadRead = true ∧
    (runArchive noFaults true ⟨some arcBadRead, none, none⟩).outcome = .clean ∧
    ¬ (runArchive noFaults true ⟨some arcBadRead, none, none⟩).outcome = .failed := by
  decide

/-- Claim C2 as amended: for every archive that passes the eligibility scan
but cannot be read during the patch step (the patcher returns no buffer), the
recorded outcome is Clean — not Failed and not Skipped — and nothing on disk
changes. -/
theorem C2_amended_read_error_clean (l : List ZEntry) (fl : Faults) (cb : Bool) (fs : FS)
    (horig : fs.orig = some (.entries l))
    (hchk : check_if_has_models (.entries l) = true)
    (hbuf : (fix_missing_textures_in_memory (.entries l)).2.2 = none) :
    (runArchive fl cb fs).outcome = .clean ∧
    (runArchive fl cb fs).fs = fs ∧
    (runArchive fl cb fs).addedToTotal = 0 := by
  have hfix : (fix_missing_textures_in_memory (.entries l)).1 = false := by
    rw [fix_missing_textures_in_memory] at hbuf ⊢
    cases hloop : fixLoop l l false 0 [] with
    | none => rfl
    | some r =>
      obtain ⟨m, cnt, buf⟩ := r
      rw [hloop] at hbuf
      cases hbuf
  rw [runArchive_clean fl cb fs _ horig hchk hfix]
  exact ⟨rfl, rfl, rfl⟩

/-- Claim C2 witness: the amended statement at the concrete unreadable
archive. -/
theorem C2_amended_witness :
    (runArchive ⟨true, true, true, true⟩ true ⟨some arcBadRead, none, none⟩).outcome = .clean ∧
    (runArchive ⟨true, true, true, true⟩ true ⟨some arcBadRead, none, none⟩).fs
      = ⟨some arcBadRead, none, none⟩ ∧
    (runArchive ⟨true, true, true, true⟩ true ⟨some arcBadRead, none, none⟩).addedToTotal = 0 :=
  C2_amended_read_error_clean [eBadRead] ⟨true, true, true, true⟩ true
    ⟨some arcBadRead, none, none⟩ rfl (by decide) (by decide)

/-- Claim C9: the eligibility scan returns false on a corrupt archive, is
true on a readable archive iff some entry name matches the selector (name
contains the `models/item/` segment and ends in `.json`), and the batch
records a corrupt archive as Skipped with the filesystem untouched. -/
theorem C9_corrupt_scan_soft_fail :
    check_if_has_models .corrupt = false ∧
    (∀ nm : List Char, isTargetName nm = true ↔
      (".json".toList <:+ nm ∧ "models/item/".toList <:+: nm)) ∧
    (∀ l : List ZEntry, check_if_has_models (.entries l) = true ↔
      ∃ e ∈ l, isTargetName e.filename = true) ∧
    (∀ (fl : Faults) (cb : Bool) (fs : FS), fs.orig = some .corrupt →
      runArchive fl cb fs = ⟨fs, .skipped, 0, []⟩) := by
  refine ⟨rfl, ?_, ?_, ?_⟩
  · intro nm
    rw [isTargetName, Bool.and_eq_true, decide_eq_true_eq]
    constructor
    · rintro ⟨h1, h2⟩
      exact ⟨List.isSuffixOf_iff_suffix.mp h1, h2⟩
    · rintro ⟨h1, h2⟩
      exact ⟨List.isSuffixOf_iff_suffix.mpr h1, h2⟩
  · intro l
    rw [check_if_has_models]
    exact List.any_eq_true
  · intro fl cb fs h
    exact runArchive_skipped fl cb fs .corrupt h rfl

/-- Claim C9 witness: the statement instantiated at concrete data — a
corrupt archive is Skipped and the selector characterization holds for a
concrete matching name. -/
theorem C9_witness :
    (isTargetName "models/item/sword.json".toList = true ↔
      (".json".toList <:+ "models/item/sword.json".toList ∧
        "models/item/".toList <:+: "models/item/sword.json".toList)) ∧
    (check_if_has_models (.entries [eBadRead]) = true ↔
      ∃ e ∈ [eBadRead], isTargetName e.filename = true) ∧
    runArchive noFaults true ⟨some .corrupt, none, none⟩
      = ⟨⟨some .corrupt, none, none⟩, .skipped, 0, []⟩ :=
  ⟨C9_corrupt_scan_soft_fail.2.1 _,
   C9_corrupt_scan_soft_fail.2.2.1 [eBadRead],
   C9_corrupt_scan_soft_fail.2.2.2 noFaults true ⟨some .corrupt, none, none⟩ rfl⟩

/-- Claim C7: if no target entry of the archive has decoded text containing
`"#missing"`, the patcher reports `(False, 0)`, and a driver run on the
archive leaves the filesystem untouched (no write, no backup) and adds
nothing to the fixed total. -/
theorem C7_clean_archive_untouched (arc : ZArchive)
    (hyp : ∀ l, arc = .entries l → ∀ e ∈ l, isTargetName e.filename = true →
      ∀ bytes text, readByName l e.filename = some bytes →
        utf8Decode bytes = some text → ¬ missingCp <:+: text) :
    (fix_missing_textures_in_memory arc).1 = false ∧
    (fix_missing_textures_in_memory arc).2.1 = 0 ∧
    ∀ (fl : Faults) (cb : Bool) (fs : FS), fs.orig = some arc →
      (runArchive fl cb fs).fs = fs ∧ (runArchive fl cb fs).addedToTotal = 0 := by
  cases arc with
  | corrupt =>
    refine ⟨rfl, rfl, ?_⟩
    intro fl cb fs h
    rw [runArchive_skipped fl cb fs .corrupt h rfl]
    exact ⟨rfl, rfl⟩
  | entries l =>
    obtain ⟨h1, h2⟩ := fix_no_missing l (hyp l rfl)
    refine ⟨h1, h2, ?_⟩
    intro fl cb fs h
    by_cases hchk : check_if_has_models (.entries l) = true
    · rw [runArchive_clean fl cb fs _ h hchk h1]
      exact ⟨rfl, rfl⟩
    · rw [runArchive_skipped fl cb fs _ h (by simpa using hchk)]
      exact ⟨rfl, rfl⟩

/-- Claim C7 witness: the statement at a concrete archive whose only target
entry is already clean. -/
theorem C7_witness :
    (fix_missing_textures_in_memory arcClean).1 = false ∧
    (fix_missing_textures_in_memory arcClean).2.1 = 0 ∧
    ((runArchive noFaults true ⟨some arcClean, none, none⟩).fs
        = ⟨some arcClean, none, none⟩ ∧
      (runArchive noFaults true ⟨some arcClean, none, none⟩).addedToTotal = 0) := by
  have h := C7_clean_archive_untouched arcClean (by
    intro l hl e he htgt bytes text hread hdec
    rw [arcClean] at hl
    injection hl with hl2
    subst hl2
    rcases List.mem_cons.mp he with rfl | he2
    · have hr : readByName [eClean, ePng] eClean.filename
          = some (asciiBytes "layer0=#0") := by decide
      rw [hr] at hread
      injection hread with hb
      subst hb
      have hd : utf8Decode (asciiBytes "layer0=#0")
          = some (asciiBytes "layer0=#0") := by decide
      rw [hd] at hdec
      injection hdec with ht
      subst ht
      decide
    · rcases List.mem_singleton.mp he2 with rfl
      exact absurd htgt (by decide))
  exact ⟨h.1, h.2.1, h.2.2 noFaults true ⟨some arcClean, none, none⟩ rfl⟩

/-- Claim C4: on an archive with unique entry names (and readable entries, so
that a patch run actually reaches the write step), the rewritten archive has
the same entry names in the same order, and the same compression method for
each entry, as the original. -/
theorem C4_order_and_compression_preserved (l : List ZEntry)
    (hnd : (l.map ZEntry.filename).Nodup)
    (hrd : ∀ e ∈ l, e.data.isSome = true) :
    ∃ buf, (fix_missing_textures_in_memory (.entries l)).2.2 = some buf ∧
      (writtenEntries buf).map ZEntry.filename = l.map ZEntry.filename ∧
      (writtenEntries buf).map ZEntry.compressType = l.map ZEntry.compressType := by
  refine ⟨bufferOf l, by rw [fix_entries_eq l hnd hrd], ?_, ?_⟩
  · rw [writtenEntries_bufferOf]
    simp [outEnt]
  · rw [writtenEntries_bufferOf]
    simp [outEnt]

/-- Claim C4 witness: the statement at a concrete two-entry archive. -/
theorem C4_witness :
    ((([eMissing, ePng] : List ZEntry).map ZEntry.filename).Nodup ∧
      ∀ e ∈ ([eMissing, ePng] : List ZEntry), e.data.isSome = true) ∧
    ∃ buf, (fix_missing_textures_in_memory (.entries [eMissing, ePng])).2.2 = some buf ∧
      (writtenEntries buf).map ZEntry.filename
        = ([eMissing, ePng] : List ZEntry).map ZEntry.filename ∧
      (writtenEntries buf).map ZEntry.compressType
        = ([eMissing, ePng] : List ZEntry).map ZEntry.compressType :=
  ⟨⟨by decide, by decide⟩,
   C4_order_and_compression_preserved [eMissing, ePng] (by decide) (by decide)⟩

/-- Claim C5: every passthrough entry, every target entry whose bytes do not
decode as UTF-8, and every target entry whose decoded text has no
`"#missing"`, is re-emitted into the rewritten archive with byte-for-byte
identical content (in particular, decode-then-re-encode is the identity on
the original bytes). -/
theorem C5_passthrough_bytes_identical (l : List ZEntry)
    (hnd : (l.map ZEntry.filename).Nodup)
    (hrd : ∀ e ∈ l, e.data.isSome = true)
    (e : ZEntry) (he : e ∈ l) (bytes : List Nat) (hdata : e.data = some bytes)
    (hcase : isTargetName e.filename = false ∨ utf8Decode bytes = none ∨
      (∃ text, utf8Decode bytes = some text ∧ ¬ missingCp <:+: text)) :
    ∃ buf, (fix_missing_textures_in_memory (.entries l)).2.2 = some buf ∧
      (⟨e.filename, some bytes, e.compressType⟩ : ZEntry) ∈ writtenEntries buf := by
  have hce : entryContent e = bytes := by
    rcases hcase with htgt | hdec | ⟨text, hdec, hmiss⟩
    · simp [entryContent, hdata, htgt]
    · by_cases htgt : isTargetName e.filename
      · simp [entryContent, hdata, htgt, hdec]
      · simp [entryContent, hdata, htgt]
    · by_cases htgt : isTargetName e.filename
      · have henc : utf8Encode text = bytes := utf8_decode_encode bytes text hdec
        simp [entryContent, hdata, htgt, hdec, hmiss, henc]
      · simp [entryContent, hdata, htgt]
  refine ⟨bufferOf l, by rw [fix_entries_eq l hnd hrd], ?_⟩
  rw [writtenEntries_bufferOf]
  refine List.mem_map.mpr ⟨e, he, ?_⟩
  rw [outEnt, hce]

/-- Claim C5 witness: the statement at the concrete passthrough entry of the
two-entry archive. -/
theorem C5_witness :
    ∃ buf, (fix_missing_textures_in_memory (.entries [eMissing, ePng])).2.2 = some buf ∧
      (⟨ePng.filename, some [137, 80, 78, 71], ePng.compressType⟩ : ZEntry)
        ∈ writtenEntries buf :=
  C5_passthrough_bytes_identical [eMissing, ePng] (by decide) (by decide)
    ePng (by decide) [137, 80, 78, 71] (by decide) (Or.inl (by decide))

/-- Claim C3: for a target entry whose bytes decode as UTF-8 to text
containing `"#missing"`, the patched entry holds the UTF-8 encoding of the
text with every occurrence replaced; the patched text decodes back, contains
zero occurrences of `"#missing"`, and decomposes as the original text with
`"#0"` substituted at exactly the original's non-overlapping `"#missing"`
occurrence positions (one `"#0"` per occurrence, `countOcc missingCp text`
of them, the surrounding segments unchanged). -/
theorem C3_missing_replaced (l : List ZEntry)
    (hnd : (l.map ZEntry.filename).Nodup)
    (hrd : ∀ e ∈ l, e.data.isSome = true)
    (e : ZEntry) (he : e ∈ l) (htgt : isTargetName e.filename = true)
    (bytes : List Nat) (hdata : e.data = some bytes)
    (text : List Nat) (hdec : utf8Decode bytes = some text)
    (hmiss : missingCp <:+: text) :
    ∃ buf, (fix_missing_textures_in_memory (.entries l)).2.2 = some buf ∧
      (e.filename, (utf8Encode (replaceList missingCp zeroCp text), e)) ∈ buf ∧
      utf8Decode (utf8Encode (replaceList missingCp zeroCp text))
        = some (replaceList missingCp zeroCp text) ∧
      countOcc missingCp (replaceList missingCp zeroCp text) = 0 ∧
      ∃ parts : List (List Nat),
        text = joinWith missingCp parts ∧
        replaceList missingCp zeroCp text = joinWith zeroCp parts ∧
        parts.length = countOcc missingCp text + 1 ∧
        ∀ p ∈ parts, ¬ missingCp <:+: p := by
  have hce : entryContent e = utf8Encode (replaceList missingCp zeroCp text) := by
    simp [entryContent, hdata, htgt, hdec, hmiss]
  have hvalid : ∀ c ∈ text, validCp c := utf8_decode_valid bytes text hdec
  have hvalid2 : ∀ c ∈ replaceList missingCp zeroCp text, validCp c := by
    intro c hc
    rcases replace_mem missingCp zeroCp text.length text le_rfl c hc with hm | hz
    · exact hvalid c hm
    · rcases List.mem_cons.mp hz with rfl | hz2
      · exact ⟨by omega, by omega⟩
      · rcases List.mem_singleton.mp hz2 with rfl
        exact ⟨by omega, by omega⟩
  refine ⟨bufferOf l, by rw [fix_entries_eq l hnd hrd], ?_, ?_, ?_, ?_⟩
  · rw [← hce]
    exact List.mem_map.mpr ⟨e, he, rfl⟩
  · exact utf8_roundtrip _ hvalid2
  · exact (countOcc_eq_zero_iff missingCp (by decide)
      (replaceList missingCp zeroCp text).length _ le_rfl).mpr
      (missing_not_infix_replace text.length text le_rfl)
  · obtain ⟨j1, j2, jl, jn⟩ := splitOn_spec missingCp zeroCp (by decide) text.length text le_rfl
    exact ⟨splitOnList missingCp text, j1.symm, j2.symm, jl, jn⟩

/-- Claim C3 witness: the statement at the concrete fixable entry. -/
theorem C3_witness :
    ∃ buf, (fix_missing_textures_in_memory (.entries [eMissing, ePng])).2.2 = some buf ∧
      (eMissing.filename,
        (utf8Encode (replaceList missingCp zeroCp (asciiBytes "layer0=#missing")),
          eMissing)) ∈ buf ∧
      utf8Decode (utf8Encode (replaceList missingCp zeroCp (asciiBytes "layer0=#missing")))
        = some (replaceList missingCp zeroCp (asciiBytes "layer0=#missing")) ∧
      countOcc missingCp (replaceList missingCp zeroCp (asciiBytes "layer0=#missing")) = 0 ∧
      ∃ parts : List (List Nat),
        asciiBytes "layer0=#missing" = joinWith missingCp parts ∧
        replaceList missingCp zeroCp (asciiBytes "layer0=#missing") = joinWith zeroCp parts ∧
        parts.length = countOcc missingCp (asciiBytes "layer0=#missing") + 1 ∧
        ∀ p ∈ parts, ¬ missingCp <:+: p :=
  C3_missing_replaced [eMissing, ePng] (by decide) (by decide) eMissing (by decide)
    (by decide) (asciiBytes "layer0=#missing") rfl (asciiBytes "layer0=#missing")
    (by decide) (by decide)

/-- Claim C8: patching is idempotent. Running the patcher on the rewritten
archive reports `(False, 0)` (so the driver records Clean), the entries it
would write are identical to the first run's output, and a driver run on the
patched archive leaves the filesystem bytes untouched. -/
theorem C8_patch_idempotent (l : List ZEntry)
    (hnd : (l.map ZEntry.filename).Nodup)
    (hrd : ∀ e ∈ l, e.data.isSome = true) :
    ∃ buf, (fix_missing_textures_in_memory (.entries l)).2.2 = some buf ∧
      fix_missing_textures_in_memory (.entries (writtenEntries buf))
        = (false, 0, some (bufferOf (writtenEntries buf))) ∧
      writtenEntries (bufferOf (writtenEntries buf)) = writtenEntries buf ∧
      (check_if_has_models (.entries l) = true →
        ∀ (fl : Faults) (cb : Bool) (fs : FS),
          fs.orig = some (.entries (writtenEntries buf)) →
          (runArchive fl cb fs).outcome = .clean ∧ (runArchive fl cb fs).fs = fs) := by
  obtain ⟨hfix2, hwr2⟩ := fix_idempotent l hnd hrd
  have hwb : writtenEntries (bufferOf l) = l.map outEnt := writtenEntries_bufferOf l
  refine ⟨bufferOf l, by rw [fix_entries_eq l hnd hrd], ?_, ?_, ?_⟩
  · rw [hwb]
    exact hfix2
  · rw [hwb]
    exact hwr2
  · intro hchk fl cb fs horig
    rw [hwb] at horig
    have hchk2 : check_if_has_models (.entries (l.map outEnt)) = true := by
      rw [check_if_has_models, List.any_map]
      rw [check_if_has_models] at hchk
      exact hchk
    have hfixm : (fix_missing_textures_in_memory (.entries (l.map outEnt))).1 = false := by
      rw [hfix2]
    rw [runArchive_clean fl cb fs _ horig hchk2 hfixm]
    exact ⟨rfl, rfl⟩

/-- Claim C8 witness: the statement at the concrete two-entry archive. -/
theorem C8_witness :
    ∃ buf, (fix_missing_textures_in_memory (.entries [eMissing, ePng])).2.2 = some buf ∧
      fix_missing_textures_in_memory (.entries (writtenEntries buf))
        = (false, 0, some (bufferOf (writtenEntries buf))) ∧
      writtenEntries (bufferOf (writtenEntries buf)) = writtenEntries buf ∧
      (check_if_has_models (.entries [eMissing, ePng]) = true →
        ∀ (fl : Faults) (cb : Bool) (fs : FS),
          fs.orig = some (.entries (writtenEntries buf)) →
          (runArchive fl cb fs).outcome = .clean ∧ (runArchive fl cb fs).fs = fs) :=
  C8_patch_idempotent [eMissing, ePng] (by decide) (by decide)

/-- Claim C6: (i) an existing backup file is never overwritten by any run;
(ii) with backups enabled and no backup yet, a successful patch leaves a
backup equal to the pre-patch original and replaces the original with the
rewritten archive; (iii) in every run (whatever faults), any filesystem state
in which the original has been removed already holds that backup — the backup
is durably written before the original is removed. -/
theorem C6_backup_create_once :
    (∀ (fl : Faults) (cb : Bool) (fs : FS) (b : ZArchive), fs.backup = some b →
      (runArchive fl cb fs).fs.backup = some b ∧
      ∀ s ∈ (runArchive fl cb fs).trace, s.backup = some b) ∧
    (∀ (fs : FS) (arc : ZArchive) (n : Nat) (buf : Buffer),
      fs.orig = some arc → fs.backup = none →
      check_if_has_models arc = true →
      fix_missing_textures_in_memory arc = (true, n, some buf) →
      (runArchive noFaults true fs).fs.backup = some arc ∧
      (runArchive noFaults true fs).fs.orig = some (.entries (writtenEntries buf)) ∧
      (runArchive noFaults true fs).outcome = .fixedOk n) ∧
    (∀ (fl : Faults) (fs : FS) (arc : ZArchive) (n : Nat) (ob : Option Buffer),
      fs.orig = some arc → fs.backup = none →
      check_if_has_models arc = true →
      fix_missing_textures_in_memory arc = (true, n, ob) →
      ∀ s ∈ (runArchive fl true fs).trace, s.orig = none → s.backup = some arc) := by
  refine ⟨runArchive_backup_stable, ?_, ?_⟩
  · intro fs arc n buf horig hb hchk hfix
    have hnb : ¬ (true = true ∧ fs.backup = none ∧ noFaults.backupFails = true) := by
      rintro ⟨-, -, hcon⟩
      cases hcon
    have hs := runArchive_success noFaults true fs arc n buf horig hchk hfix hnb rfl rfl rfl
    rw [hs.1]
    refine ⟨?_, rfl, hs.2.2 ▸ hs.2.1⟩
    dsimp only []
    rw [if_pos ⟨rfl, hb⟩]
  · intro fl fs arc n ob horig hb hchk hfix
    exact runArchive_backup_before_remove fl fs arc n ob horig hchk hfix hb

/-- Claim C6 witness: an existing backup survives a run, and a no-fault run
with backups enabled creates the backup of the pre-patch original. -/
theorem C6_witness :
    (runArchive noFaults true ⟨some arcGood, some arcClean, none⟩).fs.backup
      = some arcClean ∧
    (runArchive noFaults true fsGood).fs.backup = some arcGood ∧
    (runArchive noFaults true fsGood).outcome = .fixedOk 1 :=
  ⟨(C6_backup_create_once.1 noFaults true ⟨some arcGood, some arcClean, none⟩ arcClean rfl).1,
   (C6_backup_create_once.2.1 fsGood arcGood 1 (bufferOf [eMissing, ePng]) rfl rfl
      (by decide) (by decide)).1,
   (C6_backup_create_once.2.1 fsGood arcGood 1 (bufferOf [eMissing, ePng]) rfl rfl
      (by decide) (by decide)).2.2⟩

/-- Claim C10 (implicit): `total_fixed += fixed_count` runs before the backup
and write steps, so an archive whose patch then fails at the backup copy or
the temp write still contributes its `fixed_count` to the reported total,
while its original file on disk is unmodified. -/
theorem C10_total_counts_failed_archives (cb : Bool) (fl : Faults) (fs : FS)
    (arc : ZArchive) (n : Nat) (ob : Option Buffer)
    (horig : fs.orig = some arc)
    (hchk : check_if_has_models arc = true)
    (hfix : fix_missing_textures_in_memory arc = (true, n, ob))
    (hcase : (cb = true ∧ fs.backup = none ∧ fl.backupFails = true) ∨
      (fl.backupFails = false ∧ fl.writeFails = true ∧ ∃ buf, ob = some buf)) :
    (runArchive fl cb fs).outcome = .failed ∧
    (runArchive fl cb fs).addedToTotal = n ∧
    (runArchive fl cb fs).fs.orig = fs.orig ∧
    ∀ pre post : List (Faults × FS),
      (runBatch cb (pre ++ (fl, fs) :: post)).1
        = (runBatch cb pre).1 + n + (runBatch cb post).1 := by
  have hmain : (runArchive fl cb fs).outcome = .failed ∧
      (runArchive fl cb fs).addedToTotal = n ∧
      (runArchive fl cb fs).fs.orig = fs.orig := by
    rcases hcase with hcond | ⟨hbf, hw, buf, rfl⟩
    · rw [runArchive_backup_fail fl cb fs arc n ob horig hchk hfix hcond]
      exact ⟨rfl, rfl, rfl⟩
    · have hnb : ¬ (cb = true ∧ fs.backup = none ∧ fl.backupFails = true) := by
        rintro ⟨-, -, hcon⟩
        rw [hbf] at hcon
        cases hcon
      obtain ⟨h1, h2, h3, -⟩ := runArchive_write_fail fl cb fs arc n buf horig hchk hfix hnb hw
      exact ⟨h1, h2, h3⟩
  refine ⟨hmain.1, hmain.2.1, hmain.2.2, ?_⟩
  intro pre post
  rw [runBatch_append, runBatch_cons]
  dsimp only []
  rw [hmain.2.1]
  omega

/-- Claim C10 witness: a concrete run failing at the temp write still adds
its fixed count to the batch total. -/
theorem C10_witness :
    (runArchive ⟨false, true, false, false⟩ true fsGood).outcome = .failed ∧
    (runArchive ⟨false, true, false, false⟩ true fsGood).addedToTotal = 1 ∧
    (runArchive ⟨false, true, false, false⟩ true fsGood).fs.orig = fsGood.orig ∧
    (runBatch true ([] ++ (⟨false, true, false, false⟩, fsGood) :: [])).1
      = (runBatch true []).1 + 1 + (runBatch true []).1 := by
  have h := C10_total_counts_failed_archives true ⟨false, true, false, false⟩ fsGood
    arcGood 1 (some (bufferOf [eMissing, ePng])) rfl (by decide) (by decide)
    (Or.inr ⟨rfl, rfl, bufferOf [eMissing, ePng], rfl⟩)
  exact ⟨h.1, h.2.1, h.2.2.1, h.2.2.2 [] []⟩
